import Mathlib

/-!
Verification development for the quantum state-vector simulation engine
(`Statevector` and its dimension model, index algebra, evolution,
measurement/probability and observable-evaluation operations).

The repository snapshot ships the test suite
(`test/python/quantum_info/states/test_statevector.py`) but not the
implementation module itself, so the operations are modelled from the
specification (`spec.md`), with every behavioural choice pinned by the
assertions of the shipped tests.  Amplitudes are modelled exactly: a
complex number is a pair of scalars drawn from a linear ordered field
`K` (instantiated at `ℚ`, and at `ℚ` adjoined `√2` where basis labels
such as `"+"` require `1/√2` amplitudes), rather than floating point;
the numerical contracts of the spec (clipping, rounding, normalization)
are stated over this exact arithmetic.
-/

/-- Complex numbers over an arbitrary commutative ring `K`, as used for
the amplitude entries of a state vector. -/
structure Cplx (K : Type) where
  re : K
  im : K
deriving DecidableEq, Repr

namespace Cplx

theorem ext_iff {K : Type} {z w : Cplx K} : z = w ↔ z.re = w.re ∧ z.im = w.im := by
  cases z; cases w; simp

variable {K : Type} [CommRing K]

instance : Zero (Cplx K) := ⟨⟨0, 0⟩⟩
instance : One (Cplx K) := ⟨⟨1, 0⟩⟩
instance : Add (Cplx K) := ⟨fun z w => ⟨z.re + w.re, z.im + w.im⟩⟩
instance : Neg (Cplx K) := ⟨fun z => ⟨-z.re, -z.im⟩⟩
instance : Mul (Cplx K) := ⟨fun z w => ⟨z.re * w.re - z.im * w.im, z.re * w.im + z.im * w.re⟩⟩

@[simp] theorem zero_re : (0 : Cplx K).re = 0 := rfl
@[simp] theorem zero_im : (0 : Cplx K).im = 0 := rfl
@[simp] theorem one_re : (1 : Cplx K).re = 1 := rfl
@[simp] theorem one_im : (1 : Cplx K).im = 0 := rfl
@[simp] theorem add_re (z w : Cplx K) : (z + w).re = z.re + w.re := rfl
@[simp] theorem add_im (z w : Cplx K) : (z + w).im = z.im + w.im := rfl
@[simp] theorem neg_re (z : Cplx K) : (-z).re = -z.re := rfl
@[simp] theorem neg_im (z : Cplx K) : (-z).im = -z.im := rfl
@[simp] theorem mul_re (z w : Cplx K) : (z * w).re = z.re * w.re - z.im * w.im := rfl
@[simp] theorem mul_im (z w : Cplx K) : (z * w).im = z.re * w.im + z.im * w.re := rfl

instance : CommRing (Cplx K) where
  add := (· + ·)
  add_assoc a b c := by simp [ext_iff]; constructor <;> ring
  zero := 0
  zero_add a := by simp [ext_iff]
  add_zero a := by simp [ext_iff]
  add_comm a b := by simp [ext_iff]; constructor <;> ring
  mul := (· * ·)
  left_distrib a b c := by simp [ext_iff]; constructor <;> ring
  right_distrib a b c := by simp [ext_iff]; constructor <;> ring
  zero_mul a := by simp [ext_iff]
  mul_zero a := by simp [ext_iff]
  mul_assoc a b c := by simp [ext_iff]; constructor <;> ring
  one := 1
  one_mul a := by simp [ext_iff]
  mul_one a := by simp [ext_iff]
  mul_comm a b := by simp [ext_iff]; constructor <;> ring
  neg := Neg.neg
  neg_add_cancel a := by simp [ext_iff]
  nsmul := nsmulRec
  zsmul := zsmulRec

/-- Complex conjugate. -/
def conj (z : Cplx K) : Cplx K := ⟨z.re, -z.im⟩

/-- Squared magnitude `|z|²` of an amplitude, a scalar of `K`. -/
def normSq (z : Cplx K) : K := z.re * z.re + z.im * z.im

@[simp] theorem normSq_zero : normSq (0 : Cplx K) = 0 := by simp [normSq]

/-- Embed a scalar of `K` as a real complex number. -/
def ofK (a : K) : Cplx K := ⟨a, 0⟩

end Cplx

/-! ## The state data model and the dimension model -/

/-- Modelled from the spec: the `Statevector` data model (§3).  The
implementation module `qiskit/quantum_info/states/statevector.py` is not
part of this snapshot; only its test suite is.  A state is an ordered
sequence of complex amplitudes together with the ordered subsystem
dimensions, subsystem 0 least significant in the flat index. -/
structure SV (K : Type) where
  amps : List (Cplx K)
  dims : List Nat
deriving DecidableEq, Repr

/-- A well-formed state: the flat length equals the product of the
subsystem dimensions (spec §3 invariant). -/
def SV.WF {K : Type} (s : SV K) : Prop := s.amps.length = s.dims.prod

/-- Total Hilbert-space dimension. -/
def SV.dim {K : Type} (s : SV K) : Nat := s.amps.length

/-- Modelled from the spec: the `dims` argument accepted by the
constructor — omitted, a single integer, or an explicit sequence. -/
inductive DimSpec where
  | auto : DimSpec
  | single : Nat → DimSpec
  | ofList : List Nat → DimSpec
deriving DecidableEq, Repr

/-- Modelled from the spec: automatic dimension inference (§4.1).  If the
flat length is a power of two the state is `log2 n` qubits of dimension 2
each; otherwise the whole vector is one subsystem of dimension `n`. -/
def inferDims (n : Nat) : List Nat :=
  if 2 ^ Nat.log2 n = n then List.replicate (Nat.log2 n) 2 else [n]

/-- Modelled from the spec: the `Statevector` constructor (§4.1), with
construction-time validation.  A single-integer `dims` equal to the flat
length triggers the same automatic inference as an omitted `dims`
(pinned by `test_init_array_qubit`, where `dims=8` on a length-8 vector
yields subsystem dimensions `(2, 2, 2)`); any explicit `dims` whose
product differs from the flat length is a Dimension Mismatch error. -/
def mkStatevector {K : Type} (amps : List (Cplx K)) (spec : DimSpec) :
    Except String (SV K) :=
  match spec with
  | .auto => .ok ⟨amps, inferDims amps.length⟩
  | .single d =>
      if d = amps.length then .ok ⟨amps, inferDims amps.length⟩
      else .error "dimension mismatch"
  | .ofList ds =>
      if ds.prod = amps.length then .ok ⟨amps, ds⟩
      else .error "dimension mismatch"

/-- Modelled from the spec: `num_qubits` is the number of subsystems
only when every subsystem dimension is 2, else absent (§3). -/
def SV.numQubits {K : Type} (s : SV K) : Option Nat :=
  if s.dims.all (· = 2) then some s.dims.length else none

/-- Modelled from the spec: `__getitem__` with an integer key returns the
keyed amplitude when `0 ≤ i < dim` and raises an Invalid Index error
otherwise (§7; pinned by `test_getitem` / `test_getitem_except`, which
demand that `-1` raise rather than wrap around). -/
def SV.getItem {K : Type} (s : SV K) (i : Int) : Except String (Cplx K) :=
  if h : 0 ≤ i ∧ i < s.amps.length then
    .ok (s.amps.get ⟨i.toNat, by omega⟩)
  else
    .error "index out of range"

/-! ## Index algebra (spec §4.2)

Conversions between a flat amplitude index and per-subsystem digits
under the little-endian mixed-radix encoding of §3: flat index
`j = Σᵢ dᵢ · ∏_{l<i} dims[l]` with subsystem 0 least significant. -/

/-- Stride of subsystem `i`: the product of the dimensions of all lower
subsystems. -/
def stride (dims : List Nat) (i : Nat) : Nat := (dims.take i).prod

/-- The digit of flat index `j` at subsystem `i`. -/
def digit (dims : List Nat) (j i : Nat) : Nat :=
  (j / stride dims i) % dims.getD i 1

/-- Replace the digit of flat index `j` at subsystem `i` by `d`. -/
def setDigit (dims : List Nat) (i j d : Nat) : Nat :=
  (j / (stride dims i * dims.getD i 1)) * (stride dims i * dims.getD i 1)
    + d * stride dims i + j % stride dims i

/-- The dimension of the composite space spanned by the subsystems named
by `qargs`: the product of their dimensions. -/
def opDim (dims : List Nat) (qargs : List Nat) : Nat :=
  (qargs.map (fun q => dims.getD q 1)).prod

/-- The composite integer encoding, over the subsystems named by
`qargs`, of the digits of flat index `j`: mixed-radix with `qargs[0]`
least significant (spec §4.2). -/
def opIdx (dims : List Nat) (qargs : List Nat) (j : Nat) : Nat :=
  match qargs with
  | [] => 0
  | q :: rest => digit dims j q + dims.getD q 1 * opIdx dims rest j

/-- Write the mixed-radix digits of the composite index `m` into flat
index `j` at the subsystems named by `qargs`, leaving all other
subsystem digits unchanged. -/
def replaceDigits (dims : List Nat) (qargs : List Nat) (j m : Nat) : Nat :=
  match qargs with
  | [] => j
  | q :: rest =>
      replaceDigits dims rest (setDigit dims q j (m % dims.getD q 1))
        (m / dims.getD q 1)

/-- Two flat indices agree on every subsystem outside `qargs` (the
spectator subsystems). -/
def OffEq (dims : List Nat) (qargs : List Nat) (j j' : Nat) : Prop :=
  ∀ i ∈ List.range dims.length, i ∉ qargs → digit dims j i = digit dims j' i

instance (dims qargs : List Nat) (j j' : Nat) :
    Decidable (OffEq dims qargs j j') := by
  unfold OffEq; infer_instance

/-- An omitted / empty `qargs` denotes all subsystems in natural order
(spec §4.2 tie-break). -/
def resolveQargs (dims : List Nat) (qargs : Option (List Nat)) : List Nat :=
  match qargs with
  | none => List.range dims.length
  | some q => q

/-- Valid `qargs`: duplicate-free and within range. -/
def QargsOK (dims : List Nat) (qargs : List Nat) : Prop :=
  qargs.Nodup ∧ ∀ q ∈ qargs, q < dims.length

/-! ## Probabilities (spec §4.4) -/

/-- Clip a scalar into `[0, 1]` (the documented floating-point noise
clipping of §4.4, two-sided as pinned by `test_clip_probabilities`). -/
def clip01 {K : Type} [LinearOrderedCommRing K] (x : K) : K := max 0 (min x 1)

/-- The raw (unclipped) probability of composite outcome `m` over the
subsystems named by `q`: the sum of `|amplitude|²` over the block of
flat indices whose digits on `q` encode to `m`. -/
def blockProb {K : Type} [LinearOrderedCommRing K] (s : SV K) (q : List Nat)
    (m : Nat) : K :=
  ∑ j ∈ Finset.range s.dim,
    (if opIdx s.dims q j = m then Cplx.normSq (s.amps.getD j 0) else 0)

/-- Modelled from the spec: `probabilities(qargs)` (§4.4) — the ordered
probability vector over the composite outcomes of `qargs`, clipped into
`[0, 1]`. -/
def probabilitiesArr {K : Type} [LinearOrderedCommRing K] (s : SV K)
    (qargs : Option (List Nat)) : List K :=
  let q := resolveQargs s.dims qargs
  (List.range (opDim s.dims q)).map (fun m => clip01 (blockProb s q m))

/-- Round-half-to-even to an integer (the rounding mode of
`numpy.round`, which the engine delegates output rounding to). -/
def roundHalfEven {K : Type} [LinearOrderedField K] [FloorRing K]
    (x : K) : Int :=
  if x - ⌊x⌋ < 1 / 2 then ⌊x⌋
  else if 1 / 2 < x - ⌊x⌋ then ⌊x⌋ + 1
  else if Even ⌊x⌋ then ⌊x⌋ else ⌊x⌋ + 1

/-- Round to `d` decimal places, half to even. -/
def roundTo {K : Type} [LinearOrderedField K] [FloorRing K] (d : Nat)
    (x : K) : K :=
  (roundHalfEven (x * 10 ^ d) : K) / 10 ^ d

/-- Modelled from the spec: `probabilities(qargs, decimals=d)` (§4.4) —
the clipped probability vector with each entry rounded to `d` decimal
places.  Rounding is the final step; no renormalization follows it
(pinned by `test_round_probabilities`, whose expected output
`[0.33, 0.33, 0.33, 0]` sums to `0.99`). -/
def probabilitiesDec {K : Type} [LinearOrderedField K] [FloorRing K]
    (s : SV K) (qargs : Option (List Nat)) (d : Nat) : List K :=
  (probabilitiesArr s qargs).map (roundTo d)

/-- The little-endian digit list of composite index `m` in the given
bases. -/
def outcomeDigits (bases : List Nat) (m : Nat) : List Nat :=
  match bases with
  | [] => []
  | b :: rest => m % b :: outcomeDigits rest (m / b)

/-- Modelled from the spec: the printable digit-string of an outcome
(§4.2, §4.4): digits most-significant-first; subsystems of dimension
larger than 2 render as decimal digits, joined by a separator once any
subsystem dimension reaches 10. -/
def digitLabel (bases : List Nat) (m : Nat) : String :=
  let ds := (outcomeDigits bases m).reverse
  if bases.all (· < 10) then
    String.mk (ds.map (fun d => Char.ofNat (48 + d)))
  else
    String.intercalate "," (ds.map (fun d => Nat.repr d))

/-- The bases of the composite outcome space of `qargs`. -/
def qargBases (dims : List Nat) (qargs : List Nat) : List Nat :=
  qargs.map (fun q => dims.getD q 1)

/-- Modelled from the spec: `probabilities_dict(qargs)` (§4.4) — the
clipped distribution keyed by printable digit-strings, zero-probability
keys omitted, represented as an association list in outcome order. -/
def probabilitiesDict {K : Type} [LinearOrderedCommRing K] (s : SV K)
    (qargs : Option (List Nat)) : List (String × K) :=
  let q := resolveQargs s.dims qargs
  (List.range (opDim s.dims q)).filterMap (fun m =>
    let p := clip01 (blockProb s q m)
    if p = 0 then none else some (digitLabel (qargBases s.dims q) m, p))

/-! ## Algebraic operations (spec §4.6) -/

/-- Kronecker product of amplitude vectors, `b` fastest-varying:
entry `ja * |b| + jb` is `a[ja] * b[jb]`. -/
def kronList {K : Type} [CommRing K] (a b : List (Cplx K)) :
    List (Cplx K) :=
  (List.range (a.length * b.length)).map
    (fun idx => a.getD (idx / b.length) 0 * b.getD (idx % b.length) 0)

/-- Modelled from the spec: `tensor(other)` (§4.6), with the subsystem
ordering pinned by `test_tensor`: the amplitudes are the Kronecker
product with `other` fastest-varying (least significant) and the result
dims list `other`'s dims in the low positions. -/
def SV.tensorSV {K : Type} [CommRing K] (s o : SV K) : SV K :=
  ⟨kronList s.amps o.amps, o.dims ++ s.dims⟩

/-- Modelled from the spec: `expand(other)` (§4.6), the mirror ordering
of `tensorSV`, pinned by `test_expand`. -/
def SV.expandSV {K : Type} [CommRing K] (s o : SV K) : SV K :=
  ⟨kronList o.amps s.amps, s.dims ++ o.dims⟩

/-- Conjugate-linear inner product `⟨s|o⟩` (spec §4.6). -/
def innerSV {K : Type} [CommRing K] (s o : SV K) : Cplx K :=
  ∑ j ∈ Finset.range s.dim, Cplx.conj (s.amps.getD j 0) * o.amps.getD j 0

/-- Total squared norm `‖s‖²` of the amplitude vector. -/
def normSqTotal {K : Type} [LinearOrderedCommRing K] (s : SV K) : K :=
  ∑ j ∈ Finset.range s.dim, Cplx.normSq (s.amps.getD j 0)

/-! ## Evolution engine (spec §4.3) -/

/-- Entry `r c` of a dense operator matrix given as a row list. -/
def matEntry {K : Type} [CommRing K] (M : List (List (Cplx K)))
    (r c : Nat) : Cplx K :=
  (M.getD r []).getD c 0

/-- Modelled from the spec: `evolve(op_matrix, qargs)` (§4.3) — the
amplitude at flat index `j` becomes the contraction of the operator row
selected by `j`'s digits on `qargs` against the amplitudes at the
indices obtained by substituting every composite column value into
`j`'s digits at `qargs`; spectator subsystems are untouched. -/
def evolveOp {K : Type} [CommRing K] (s : SV K)
    (M : List (List (Cplx K))) (qargs : Option (List Nat)) : SV K :=
  let q := resolveQargs s.dims qargs
  ⟨(List.range s.dim).map (fun j =>
      ∑ m ∈ Finset.range (opDim s.dims q),
        matEntry M (opIdx s.dims q j) m
          * s.amps.getD (replaceDigits s.dims q j m) 0),
    s.dims⟩

/-- The full-space operator described by the spec's own words in §4.3:
the contraction of `op_matrix` against the axes named by `qargs`, with
identity on all other axes.  Its entry at `(j, j')` is the `op_matrix`
entry selected by the `qargs` digits of `j` and `j'` when all spectator
digits agree, and `0` otherwise. -/
def fullOpEntry {K : Type} [CommRing K] (dims : List Nat)
    (q : List Nat) (M : List (List (Cplx K))) (j j' : Nat) : Cplx K :=
  if OffEq dims q j j' then matEntry M (opIdx dims q j) (opIdx dims q j')
  else 0

/-- Plain full-space matrix-vector application of an entrywise-given
operator to a state. -/
def applyFull {K : Type} [CommRing K] (s : SV K)
    (F : Nat → Nat → Cplx K) : SV K :=
  ⟨(List.range s.dim).map (fun j =>
      ∑ j' ∈ Finset.range s.dim, F j j' * s.amps.getD j' 0),
    s.dims⟩

/-! ## Measurement engine (spec §4.4) -/

/-- Inverse-CDF sampling: the index of the bucket of `probs` containing
the random draw `r`. -/
def sampleFrom {K : Type} [LinearOrderedCommRing K] (r : K)
    (probs : List K) : Nat :=
  match probs with
  | [] => 0
  | p :: rest => if r < p then 0 else sampleFrom (r - p) rest + 1

/-- The clipped sampling distribution over the outcomes of `q`, exactly
the vector produced by `probabilitiesArr`. -/
def sampleDist {K : Type} [LinearOrderedCommRing K] (s : SV K)
    (q : List Nat) : List K :=
  (List.range (opDim s.dims q)).map (fun m => clip01 (blockProb s q m))

/-- Modelled from the spec: the outcome index drawn by `measure(qargs)`
(§4.4) for the random draw `r` supplied by the state's attached
generator. -/
def measureIdx {K : Type} [LinearOrderedCommRing K] (s : SV K)
    (q : List Nat) (r : K) : Nat :=
  sampleFrom r (sampleDist s q)

/-- Modelled from the spec: the projective collapse of `measure(qargs)`
(§4.4) before renormalization — every amplitude inconsistent with
outcome `k` on the measured subsystems is zeroed.  The renormalizing
scalar `1/√p` (with `p` the outcome probability) multiplies every
amplitude; since probabilities scale by its square, every probability of
the renormalized post-measurement state equals the corresponding
probability of this zeroed vector divided by `p`, which is how the
post-measurement probabilities are stated below. -/
def collapseSV {K : Type} [LinearOrderedCommRing K] (s : SV K)
    (q : List Nat) (k : Nat) : SV K :=
  ⟨(List.range s.dim).map (fun j =>
      if opIdx s.dims q j = k then s.amps.getD j 0 else 0),
    s.dims⟩

/-! ## Observable evaluator (spec §4.5) -/

/-- Single-letter Pauli-like term tags (spec §3). -/
inductive PauliChar where
  | I : PauliChar
  | X : PauliChar
  | Y : PauliChar
  | Z : PauliChar
deriving DecidableEq, Repr

/-- The 2×2 matrix of one Pauli letter. -/
def pauliMat {K : Type} [CommRing K] : PauliChar → List (List (Cplx K))
  | .I => [[1, 0], [0, 1]]
  | .X => [[0, 1], [1, 0]]
  | .Y => [[0, ⟨0, -1⟩], [⟨0, 1⟩, 0]]
  | .Z => [[1, 0], [0, -1]]

/-- Kronecker product of dense square matrices, `b` (size `nb`) on the
least-significant side. -/
def kronMat {K : Type} [CommRing K] (a : List (List (Cplx K)))
    (b : List (List (Cplx K))) : List (List (Cplx K)) :=
  (List.range (a.length * b.length)).map (fun r =>
    (List.range (a.length * b.length)).map (fun c =>
      matEntry a (r / b.length) (c / b.length)
        * matEntry b (r % b.length) (c % b.length)))

/-- The dense matrix of a multi-qubit Pauli-like term; entry `i` of the
tag list acts on subsystem `i` (least significant last in the Kronecker
chain). -/
def pauliKron {K : Type} [CommRing K] (chars : List PauliChar) :
    List (List (Cplx K)) :=
  chars.foldl (fun acc c => kronMat (pauliMat c) acc) [[1]]

/-- Modelled from the spec: the contribution of one weighted Pauli-like
term to `expectation_value` (§4.5).  A term that is the identity on
every subsystem short-circuits to `coefficient × ‖ψ‖²` without a matrix
contraction; any other term takes the dense-matrix path
`coefficient × ⟨ψ| evolve(matrix) |ψ⟩` on a scratch copy. -/
def termExpval {K : Type} [LinearOrderedCommRing K] (s : SV K)
    (t : List PauliChar × Cplx K) : Cplx K :=
  if t.1.all (· = PauliChar.I) then t.2 * Cplx.ofK (normSqTotal s)
  else t.2 * innerSV s (evolveOp s (pauliKron t.1) none)

/-- Modelled from the spec: `expectation_value` of a weighted sum of
Pauli-like terms (§4.5) — each term's contribution computed
independently and accumulated. -/
def expectationValue {K : Type} [LinearOrderedCommRing K] (s : SV K)
    (terms : List (List PauliChar × Cplx K)) : Cplx K :=
  terms.foldr (fun t acc => termExpval s t + acc) 0

/-! ## The scalar field `ℚ(√2)`

Basis labels such as `"+"` give amplitudes `1/√2`, so the exact scalar
field used to model `from_label` states is `ℚ` adjoined `√2`, with a
computable order decided by sign analysis and justified through the
evaluation embedding into `ℝ`. -/

/-- `a + b·√2` with `a b : ℚ`. -/
structure Q2 where
  a : ℚ
  b : ℚ
deriving DecidableEq, Repr

namespace Q2

theorem q2ext {x y : Q2} (ha : x.a = y.a) (hb : x.b = y.b) : x = y := by
  cases x; cases y; simp_all

instance : Zero Q2 := ⟨⟨0, 0⟩⟩
instance : One Q2 := ⟨⟨1, 0⟩⟩
instance : Add Q2 := ⟨fun x y => ⟨x.a + y.a, x.b + y.b⟩⟩
instance : Neg Q2 := ⟨fun x => ⟨-x.a, -x.b⟩⟩
instance : Mul Q2 := ⟨fun x y => ⟨x.a * y.a + 2 * (x.b * y.b), x.a * y.b + x.b * y.a⟩⟩
instance : Inv Q2 :=
  ⟨fun x => ⟨x.a / (x.a ^ 2 - 2 * x.b ^ 2), -x.b / (x.a ^ 2 - 2 * x.b ^ 2)⟩⟩

@[simp] theorem zero_a : (0 : Q2).a = 0 := rfl
@[simp] theorem zero_b : (0 : Q2).b = 0 := rfl
@[simp] theorem one_a : (1 : Q2).a = 1 := rfl
@[simp] theorem one_b : (1 : Q2).b = 0 := rfl
@[simp] theorem add_a (x y : Q2) : (x + y).a = x.a + y.a := rfl
@[simp] theorem add_b (x y : Q2) : (x + y).b = x.b + y.b := rfl
@[simp] theorem neg_a (x : Q2) : (-x).a = -x.a := rfl
@[simp] theorem neg_b (x : Q2) : (-x).b = -x.b := rfl
@[simp] theorem mul_a (x y : Q2) : (x * y).a = x.a * y.a + 2 * (x.b * y.b) := rfl
@[simp] theorem mul_b (x y : Q2) : (x * y).b = x.a * y.b + x.b * y.a := rfl

/-- Evaluation of `a + b·√2` in `ℝ`. -/
noncomputable def toReal (x : Q2) : ℝ := (x.a : ℝ) + (x.b : ℝ) * Real.sqrt 2

theorem sqrt2_sq : Real.sqrt 2 * Real.sqrt 2 = 2 :=
  Real.mul_self_sqrt (by norm_num)

theorem sqrt2_pos : (0 : ℝ) < Real.sqrt 2 :=
  Real.sqrt_pos.mpr (by norm_num)

theorem rat_sq_ne_two (q : ℚ) : (q : ℝ) ^ 2 ≠ 2 := by
  intro h
  have habs : ((|q| : ℚ) : ℝ) = Real.sqrt 2 := by
    rw [show ((2 : ℝ)) = ((|q| : ℚ) : ℝ) ^ 2 by push_cast [abs_pow]; rw [← h]; simp [sq_abs]]
    rw [Real.sqrt_sq (by positivity)]
  exact irrational_sqrt_two ⟨|q|, habs⟩

theorem toReal_inj {x y : Q2} (h : toReal x = toReal y) : x = y := by
  by_cases hb : x.b = y.b
  · have ha : x.a = y.a := by
      have h2 : (x.a : ℝ) = (y.a : ℝ) := by
        unfold toReal at h; rw [hb] at h; linarith
      exact_mod_cast h2
    exact q2ext ha hb
  · exfalso
    have hbne : (x.b - y.b : ℚ) ≠ 0 := sub_ne_zero.mpr hb
    have hbne' : ((x.b : ℝ) - (y.b : ℝ)) ≠ 0 :=
      sub_ne_zero.mpr (by exact_mod_cast hb)
    have hs : Real.sqrt 2 = (((y.a - x.a) / (x.b - y.b) : ℚ) : ℝ) := by
      unfold toReal at h
      push_cast
      rw [eq_div_iff hbne']
      linear_combination h
    refine rat_sq_ne_two ((y.a - x.a) / (x.b - y.b)) ?_
    rw [← hs, sq, sqrt2_sq]

@[simp] theorem toReal_zero : toReal 0 = 0 := by simp [toReal]
@[simp] theorem toReal_one : toReal 1 = 1 := by simp [toReal]
@[simp] theorem toReal_add (x y : Q2) : toReal (x + y) = toReal x + toReal y := by
  simp only [toReal, add_a, add_b]; push_cast; ring
@[simp] theorem toReal_neg (x : Q2) : toReal (-x) = -toReal x := by
  simp only [toReal, neg_a, neg_b]; push_cast; ring
@[simp] theorem toReal_mul (x y : Q2) : toReal (x * y) = toReal x * toReal y := by
  simp only [toReal, mul_a, mul_b]
  push_cast
  linear_combination (-(x.b : ℝ) * (y.b : ℝ)) * sqrt2_sq

/-- Computable nonnegativity test for `a + b·√2`, by sign analysis. -/
def nonnegB (x : Q2) : Bool :=
  if 0 ≤ x.a then
    if 0 ≤ x.b then true else decide (2 * x.b ^ 2 ≤ x.a ^ 2)
  else
    if 0 ≤ x.b then decide (x.a ^ 2 ≤ 2 * x.b ^ 2) else false

theorem nonnegB_iff (x : Q2) : nonnegB x = true ↔ 0 ≤ toReal x := by
  have hs2 := sqrt2_sq
  have hsp := sqrt2_pos
  unfold nonnegB toReal
  by_cases ha : (0 : ℚ) ≤ x.a <;> by_cases hb : (0 : ℚ) ≤ x.b <;>
    simp [ha, hb]
  · have ha' : (0 : ℝ) ≤ (x.a : ℝ) := by exact_mod_cast ha
    have hb' : (0 : ℝ) ≤ (x.b : ℝ) := by exact_mod_cast hb
    positivity
  · have ha' : (0 : ℝ) ≤ (x.a : ℝ) := by exact_mod_cast ha
    have hb' : (x.b : ℝ) < 0 := by exact_mod_cast not_le.mp hb
    constructor
    · intro hle
      have hle' : 2 * (x.b : ℝ) ^ 2 ≤ (x.a : ℝ) ^ 2 := by exact_mod_cast hle
      nlinarith [mul_pos (neg_pos.mpr hb') hsp]
    · intro hle
      have h2 : 2 * (x.b : ℝ) ^ 2 ≤ (x.a : ℝ) ^ 2 := by
        nlinarith [mul_pos (neg_pos.mpr hb') hsp]
      exact_mod_cast h2
  · have ha' : (x.a : ℝ) < 0 := by exact_mod_cast not_le.mp ha
    have hb' : (0 : ℝ) ≤ (x.b : ℝ) := by exact_mod_cast hb
    constructor
    · intro hle
      have hle' : (x.a : ℝ) ^ 2 ≤ 2 * (x.b : ℝ) ^ 2 := by exact_mod_cast hle
      nlinarith [mul_nonneg hb' hsp.le]
    · intro hle
      have h2 : (x.a : ℝ) ^ 2 ≤ 2 * (x.b : ℝ) ^ 2 := by
        nlinarith [mul_nonneg hb' hsp.le]
      exact_mod_cast h2
  · have ha' : (x.a : ℝ) < 0 := by exact_mod_cast not_le.mp ha
    have hb' : (x.b : ℝ) < 0 := by exact_mod_cast not_le.mp hb
    nlinarith [mul_pos (neg_pos.mpr hb') hsp]

instance : LE Q2 := ⟨fun x y => nonnegB (y + -x) = true⟩

theorem le_iff_toReal {x y : Q2} : x ≤ y ↔ toReal x ≤ toReal y := by
  show nonnegB (y + -x) = true ↔ _
  rw [nonnegB_iff]
  simp [sub_nonneg]

instance decLE : DecidableRel (· ≤ · : Q2 → Q2 → Prop) := fun x y =>
  inferInstanceAs (Decidable (nonnegB (y + -x) = true))

instance commRing : CommRing Q2 where
  add := (· + ·)
  add_assoc x y z := by apply q2ext <;> simp <;> ring
  zero := 0
  zero_add x := by apply q2ext <;> simp
  add_zero x := by apply q2ext <;> simp
  add_comm x y := by apply q2ext <;> simp <;> ring
  mul := (· * ·)
  left_distrib x y z := by apply q2ext <;> simp <;> ring
  right_distrib x y z := by apply q2ext <;> simp <;> ring
  zero_mul x := by apply q2ext <;> simp
  mul_zero x := by apply q2ext <;> simp
  mul_assoc x y z := by apply q2ext <;> simp <;> ring
  one := 1
  one_mul x := by apply q2ext <;> simp
  mul_one x := by apply q2ext <;> simp
  mul_comm x y := by apply q2ext <;> simp <;> ring
  neg := Neg.neg
  neg_add_cancel x := by apply q2ext <;> simp
  nsmul := nsmulRec
  zsmul := zsmulRec

theorem toReal_sub (x y : Q2) : toReal (x - y) = toReal x - toReal y := by
  show toReal (x + -y) = _
  rw [toReal_add, toReal_neg]; ring

instance linearOrder : LinearOrder Q2 where
  le := (· ≤ ·)
  le_refl x := le_iff_toReal.mpr le_rfl
  le_trans x y z hxy hyz :=
    le_iff_toReal.mpr (le_trans (le_iff_toReal.mp hxy) (le_iff_toReal.mp hyz))
  le_antisymm x y hxy hyx :=
    toReal_inj (le_antisymm (le_iff_toReal.mp hxy) (le_iff_toReal.mp hyx))
  le_total x y := by
    rcases le_total (toReal x) (toReal y) with h | h
    · exact Or.inl (le_iff_toReal.mpr h)
    · exact Or.inr (le_iff_toReal.mpr h)
  decidableLE := decLE

theorem lt_iff_toReal {x y : Q2} : x < y ↔ toReal x < toReal y := by
  rw [lt_iff_le_not_le, lt_iff_le_not_le, le_iff_toReal, le_iff_toReal]

instance field : Field Q2 where
  exists_pair_ne := ⟨0, 1, by decide⟩
  mul_inv_cancel x hx := by
    have hD : x.a ^ 2 - 2 * x.b ^ 2 ≠ 0 := by
      intro hD0
      rcases eq_or_ne x.b 0 with hb | hb
      · have ha : x.a = 0 := by
          rw [hb] at hD0; ring_nf at hD0
          exact pow_eq_zero_iff (n := 2) (by norm_num) |>.mp (by linarith)
        exact hx (q2ext ha hb)
      · refine rat_sq_ne_two (x.a / x.b) ?_
        push_cast
        rw [div_pow]
        rw [div_eq_iff (by positivity : ((x.b : ℝ)) ^ 2 ≠ 0)]
        have : (x.a : ℝ) ^ 2 - 2 * (x.b : ℝ) ^ 2 = 0 := by exact_mod_cast hD0
        linarith
    apply q2ext
    · show x.a * (x.a / (x.a ^ 2 - 2 * x.b ^ 2)) + 2 * (x.b * (-x.b / (x.a ^ 2 - 2 * x.b ^ 2))) = 1
      field_simp
      ring
    · show x.a * (-x.b / (x.a ^ 2 - 2 * x.b ^ 2)) + x.b * (x.a / (x.a ^ 2 - 2 * x.b ^ 2)) = 0
      field_simp
      ring
  inv_zero := by
    apply q2ext <;> simp [Inv.inv]
  nnqsmul := _
  qsmul := _

instance : LinearOrderedField Q2 where
  __ := commRing
  __ := linearOrder
  __ := field
  add_le_add_left x y hxy z := by
    rw [le_iff_toReal] at hxy ⊢
    show toReal (z + x) ≤ toReal (z + y)
    rw [toReal_add, toReal_add]
    linarith
  zero_le_one := le_iff_toReal.mpr (by simp)
  mul_pos x y hx hy := by
    rw [lt_iff_toReal] at hx hy ⊢
    rw [toReal_mul, toReal_zero] at *
    exact mul_pos hx hy

end Q2

/-! ## Basis-label construction over `ℚ(√2)` (spec §6) -/

/-- The amplitude `1/√2 = (1/2)·√2` as a real element of `Cplx Q2`. -/
def invSqrt2 : Cplx Q2 := ⟨⟨0, 1/2⟩, 0⟩

/-- The amplitude `i/√2`. -/
def invSqrt2I : Cplx Q2 := ⟨0, ⟨0, 1/2⟩⟩

/-- Modelled from the spec: the single-qubit state of one basis-label
symbol from the alphabet `{0,1,+,-,r,l}` (§6).  Symbols outside the
alphabet are rejected by the constructor upstream and are given the
`|0⟩` column here only to keep the map total. -/
def qubitOfChar (c : Char) : List (Cplx Q2) :=
  if c = '0' then [1, 0]
  else if c = '1' then [0, 1]
  else if c = '+' then [invSqrt2, invSqrt2]
  else if c = '-' then [invSqrt2, -invSqrt2]
  else if c = 'r' then [invSqrt2, invSqrt2I]
  else if c = 'l' then [invSqrt2, -invSqrt2I]
  else [1, 0]

/-- Modelled from the spec: `Statevector.from_label` (§6) — the product
state of the per-qubit label symbols, leftmost symbol most significant
(highest subsystem), built by composing with `tensorSV`. -/
def fromLabel (lbl : String) : SV Q2 :=
  lbl.toList.foldl (fun acc c => acc.tensorSV ⟨qubitOfChar c, [2]⟩) ⟨[1], []⟩

/-! ## Index algebra lemmas -/

theorem stride_pos {dims : List Nat} (hpos : ∀ d ∈ dims, 0 < d) (i : Nat) :
    0 < stride dims i := by
  unfold stride
  apply List.prod_pos
  intro d hd
  exact hpos d (List.mem_of_mem_take hd)

theorem base_pos {dims : List Nat} (hpos : ∀ d ∈ dims, 0 < d) (i : Nat) :
    0 < dims.getD i 1 := by
  by_cases h : i < dims.length
  · rw [List.getD_eq_getElem dims 1 h]
    exact hpos _ (List.getElem_mem h)
  · rw [List.getD_eq_default dims 1 (le_of_not_lt h)]
    norm_num

theorem stride_succ (dims : List Nat) (i : Nat) :
    stride dims (i + 1) = stride dims i * dims.getD i 1 := by
  by_cases h : i < dims.length
  · unfold stride
    rw [List.prod_take_succ dims i h, List.getD_eq_getElem dims 1 h]
  · unfold stride
    rw [List.take_of_length_le (by omega), List.take_of_length_le (by omega),
      List.getD_eq_default dims 1 (by omega), mul_one]

theorem stride_dvd_stride {dims : List Nat} {i i' : Nat} (h : i ≤ i') :
    stride dims i ∣ stride dims i' := by
  unfold stride
  rw [show i' = i + (i' - i) by omega, List.take_add, List.prod_append]
  exact dvd_mul_right _ _

theorem stride_dvd_prod (dims : List Nat) (i : Nat) :
    stride dims i ∣ dims.prod := by
  refine ⟨(dims.drop i).prod, ?_⟩
  rw [← List.prod_take_mul_prod_drop dims i]
  rfl

theorem strideMul_dvd_stride {dims : List Nat} {i i' : Nat} (h : i < i') :
    stride dims i * dims.getD i 1 ∣ stride dims i' := by
  rw [← stride_succ]
  exact stride_dvd_stride (by omega)

theorem strideMul_dvd_prod (dims : List Nat) (i : Nat) :
    stride dims i * dims.getD i 1 ∣ dims.prod := by
  rw [← stride_succ]
  exact stride_dvd_prod dims (i + 1)

theorem digit_lt {dims : List Nat} (hpos : ∀ d ∈ dims, 0 < d) (j i : Nat) :
    digit dims j i < dims.getD i 1 :=
  Nat.mod_lt _ (base_pos hpos i)

/-- A digit is a function of the flat index modulo the next stride. -/
theorem digit_eq_mod_stride (dims : List Nat) (hpos : ∀ d ∈ dims, 0 < d)
    (x i : Nat) :
    digit dims x i = x % stride dims (i + 1) / stride dims i % dims.getD i 1 := by
  have hS : 0 < stride dims i := stride_pos hpos i
  have hb : 0 < dims.getD i 1 := base_pos hpos i
  unfold digit
  conv =>
    lhs
    rw [show x = x % stride dims (i + 1) + stride dims (i + 1) * (x / stride dims (i + 1)) from (Nat.mod_add_div _ _).symm]
  rw [stride_succ]
  rw [show stride dims i * dims.getD i 1 * (x / (stride dims i * dims.getD i 1))
      = dims.getD i 1 * (x / (stride dims i * dims.getD i 1)) * stride dims i by ring]
  rw [Nat.add_mul_div_right _ _ hS]
  rw [Nat.add_mul_mod_self_left]

theorem digit_eq_of_mod_eq {dims : List Nat} (hpos : ∀ d ∈ dims, 0 < d)
    {x y i : Nat} (h : x % stride dims (i + 1) = y % stride dims (i + 1)) :
    digit dims x i = digit dims y i := by
  rw [digit_eq_mod_stride dims hpos x i, digit_eq_mod_stride dims hpos y i, h]

theorem digit_eq_of_div_eq {dims : List Nat} {x y i i' : Nat} (h : i < i')
    (hd : x / stride dims (i + 1) = y / stride dims (i + 1)) :
    digit dims x i' = digit dims y i' := by
  obtain ⟨k, hk⟩ := @stride_dvd_stride dims (i + 1) i' (show i + 1 ≤ i' by omega)
  unfold digit
  rw [hk, ← Nat.div_div_eq_div_mul, ← Nat.div_div_eq_div_mul, hd]

theorem setDigit_lt {dims : List Nat} (hpos : ∀ d ∈ dims, 0 < d)
    {i j d : Nat} (hj : j < dims.prod) (hd : d < dims.getD i 1) :
    setDigit dims i j d < dims.prod := by
  have hS : 0 < stride dims i := stride_pos hpos i
  have hb : 0 < dims.getD i 1 := base_pos hpos i
  obtain ⟨Q, hQ⟩ := strideMul_dvd_prod dims i
  set S := stride dims i with hSdef
  set b := dims.getD i 1 with hbdef
  have hj' : j < S * b * Q := by rw [← hQ]; exact hj
  have hdiv : j / (S * b) + 1 ≤ Q := by
    have h2 : j / (S * b) < Q := by
      rw [Nat.div_lt_iff_lt_mul (by positivity), mul_comm]
      exact hj'
    omega
  have hmod : j % S < S := Nat.mod_lt _ hS
  unfold setDigit
  rw [← hSdef, ← hbdef]
  calc j / (S * b) * (S * b) + d * S + j % S
      < j / (S * b) * (S * b) + d * S + S := by omega
    _ = j / (S * b) * (S * b) + (d + 1) * S := by ring
    _ ≤ j / (S * b) * (S * b) + b * S := by
        have hd1 : d + 1 ≤ b := hd
        exact Nat.add_le_add_left (Nat.mul_le_mul_right _ hd1) _
    _ = (j / (S * b) + 1) * (S * b) := by ring
    _ ≤ Q * (S * b) := Nat.mul_le_mul_right _ hdiv
    _ = dims.prod := by rw [hQ]; ring

theorem digit_setDigit_same {dims : List Nat} (hpos : ∀ d ∈ dims, 0 < d)
    {i d : Nat} (j : Nat) (hd : d < dims.getD i 1) :
    digit dims (setDigit dims i j d) i = d := by
  have hS : 0 < stride dims i := stride_pos hpos i
  unfold digit setDigit
  set S := stride dims i with hSdef
  set b := dims.getD i 1 with hbdef
  rw [show j / (S * b) * (S * b) + d * S + j % S
      = j % S + (j / (S * b) * b + d) * S by ring]
  rw [Nat.add_mul_div_right _ _ hS]
  rw [Nat.div_eq_of_lt (Nat.mod_lt _ hS), zero_add]
  rw [show j / (S * b) * b + d = d + j / (S * b) * b by ring]
  rw [Nat.add_mul_mod_self_right, Nat.mod_eq_of_lt hd]

theorem setDigit_mod_stride {dims : List Nat} {i j d : Nat} :
    setDigit dims i j d % stride dims i = j % stride dims i := by
  unfold setDigit
  set S := stride dims i with hSdef
  set b := dims.getD i 1 with hbdef
  rw [show j / (S * b) * (S * b) + d * S + j % S
      = j % S + (j / (S * b) * b + d) * S by ring]
  rw [Nat.add_mul_mod_self_right]
  exact Nat.mod_mod_of_dvd j dvd_rfl

theorem setDigit_div_strideMul {dims : List Nat} (hpos : ∀ d ∈ dims, 0 < d)
    {i j d : Nat} (hd : d < dims.getD i 1) :
    setDigit dims i j d / (stride dims i * dims.getD i 1)
      = j / (stride dims i * dims.getD i 1) := by
  have hS : 0 < stride dims i := stride_pos hpos i
  have hb : 0 < dims.getD i 1 := base_pos hpos i
  unfold setDigit
  set S := stride dims i with hSdef
  set b := dims.getD i 1 with hbdef
  rw [show j / (S * b) * (S * b) + d * S + j % S
      = d * S + j % S + (S * b) * (j / (S * b)) by ring]
  rw [Nat.add_mul_div_left _ _ (by positivity)]
  rw [Nat.div_eq_of_lt ?hsmall, zero_add]
  case hsmall =>
    have h1 : d + 1 ≤ b := hd
    have h2 : j % S < S := Nat.mod_lt _ hS
    calc d * S + j % S < d * S + S := by omega
      _ = (d + 1) * S := by ring
      _ ≤ b * S := Nat.mul_le_mul_right _ h1
      _ = S * b := by ring

theorem digit_setDigit_ne {dims : List Nat} (hpos : ∀ d ∈ dims, 0 < d)
    {i i' j d : Nat} (hne : i' ≠ i) (hd : d < dims.getD i 1) :
    digit dims (setDigit dims i j d) i' = digit dims j i' := by
  rcases Nat.lt_or_ge i' i with hlt | hge
  · apply digit_eq_of_mod_eq hpos
    have hdvd : stride dims (i' + 1) ∣ stride dims i :=
      stride_dvd_stride (by omega)
    calc setDigit dims i j d % stride dims (i' + 1)
        = setDigit dims i j d % stride dims i % stride dims (i' + 1) :=
          (Nat.mod_mod_of_dvd _ hdvd).symm
      _ = j % stride dims i % stride dims (i' + 1) := by
          rw [setDigit_mod_stride]
      _ = j % stride dims (i' + 1) := Nat.mod_mod_of_dvd _ hdvd
  · have hgt : i < i' := by omega
    apply digit_eq_of_div_eq hgt
    rw [stride_succ]
    exact setDigit_div_strideMul hpos hd

theorem digit_replace_not_mem {dims : List Nat} (hpos : ∀ d ∈ dims, 0 < d) :
    ∀ (qargs : List Nat) (j m i : Nat), i ∉ qargs →
      digit dims (replaceDigits dims qargs j m) i = digit dims j i := by
  intro qargs
  induction qargs with
  | nil => intro j m i _; rfl
  | cons q rest ih =>
      intro j m i hi
      unfold replaceDigits
      rw [ih _ _ _ (fun h => hi (List.mem_cons_of_mem q h))]
      exact digit_setDigit_ne hpos (fun h => hi (h ▸ List.mem_cons_self q rest))
        (Nat.mod_lt _ (base_pos hpos q))

theorem replaceDigits_lt {dims : List Nat} (hpos : ∀ d ∈ dims, 0 < d) :
    ∀ (qargs : List Nat) (j m : Nat), j < dims.prod →
      replaceDigits dims qargs j m < dims.prod := by
  intro qargs
  induction qargs with
  | nil => intro j m h; exact h
  | cons q rest ih =>
      intro j m hj
      exact ih _ _ (setDigit_lt hpos hj (Nat.mod_lt _ (base_pos hpos q)))

theorem opIdx_lt {dims : List Nat} (hpos : ∀ d ∈ dims, 0 < d) :
    ∀ (qargs : List Nat) (j : Nat), opIdx dims qargs j < opDim dims qargs := by
  intro qargs
  induction qargs with
  | nil => intro j; simp [opIdx, opDim]
  | cons q rest ih =>
      intro j
      have h1 : digit dims j q + 1 ≤ dims.getD q 1 := digit_lt hpos j q
      have h2 : opIdx dims rest j + 1 ≤ opDim dims rest := ih j
      have hb : 0 < dims.getD q 1 := base_pos hpos q
      have hexp : opDim dims (q :: rest) = dims.getD q 1 * opDim dims rest := by
        unfold opDim
        rw [List.map_cons, List.prod_cons]
      show digit dims j q + dims.getD q 1 * opIdx dims rest j < opDim dims (q :: rest)
      rw [hexp]
      nlinarith

theorem opDim_cons (dims : List Nat) (q : Nat) (rest : List Nat) :
    opDim dims (q :: rest) = dims.getD q 1 * opDim dims rest := by
  unfold opDim
  rw [List.map_cons, List.prod_cons]

theorem opIdx_replace {dims : List Nat} (hpos : ∀ d ∈ dims, 0 < d) :
    ∀ (qargs : List Nat), qargs.Nodup → ∀ (j m : Nat), m < opDim dims qargs →
      opIdx dims qargs (replaceDigits dims qargs j m) = m := by
  intro qargs
  induction qargs with
  | nil =>
      intro _ j m hm
      unfold opDim at hm
      simp at hm
      simp [opIdx, hm]
  | cons q rest ih =>
      intro hnd j m hm
      have hb : 0 < dims.getD q 1 := base_pos hpos q
      obtain ⟨hq_rest, hnd2⟩ := List.nodup_cons.mp hnd
      unfold replaceDigits opIdx
      rw [digit_replace_not_mem hpos rest _ _ q hq_rest]
      rw [digit_setDigit_same hpos j (Nat.mod_lt _ hb)]
      rw [ih hnd2 _ _ ?hm2]
      · exact Nat.mod_add_div m _
      case hm2 =>
        rw [opDim_cons] at hm
        rw [Nat.div_lt_iff_lt_mul hb, mul_comm]
        exact hm

theorem digit_cons_zero (d : Nat) (rest : List Nat) (x : Nat) :
    digit (d :: rest) x 0 = x % d := by
  simp [digit, stride]

theorem digit_cons_succ (d : Nat) (rest : List Nat) (x i : Nat) :
    digit (d :: rest) x (i + 1) = digit rest (x / d) i := by
  unfold digit
  have h1 : stride (d :: rest) (i + 1) = d * stride rest i := by
    unfold stride
    rw [List.take_succ_cons, List.prod_cons]
  rw [h1, ← Nat.div_div_eq_div_mul]
  rfl

theorem digit_ext : ∀ (dims : List Nat) (j j' : Nat), j < dims.prod →
    j' < dims.prod → (∀ i < dims.length, digit dims j i = digit dims j' i) →
    j = j' := by
  intro dims
  induction dims with
  | nil =>
      intro j j' hj hj' _
      simp [List.prod_nil] at hj hj'
      omega
  | cons d rest ih =>
      intro j j' hj hj' hdig
      rw [List.prod_cons] at hj hj'
      have hd0 : 0 < d := by
        rcases Nat.eq_zero_or_pos d with h0 | h
        · subst h0; simp at hj
        · exact h
      have h0 : j % d = j' % d := by
        have := hdig 0 (by simp)
        rwa [digit_cons_zero, digit_cons_zero] at this
      have hrest : ∀ i < rest.length, digit rest (j / d) i = digit rest (j' / d) i := by
        intro i hi
        have := hdig (i + 1) (by simp; omega)
        rwa [digit_cons_succ, digit_cons_succ] at this
      have hjd : j / d < rest.prod := by
        rw [Nat.div_lt_iff_lt_mul hd0, mul_comm]
        exact hj
      have hjd' : j' / d < rest.prod := by
        rw [Nat.div_lt_iff_lt_mul hd0, mul_comm]
        exact hj'
      have hdiv : j / d = j' / d := ih (j / d) (j' / d) hjd hjd' hrest
      have e1 := Nat.div_add_mod j d
      have e2 := Nat.div_add_mod j' d
      rw [← hdiv, ← h0] at e2
      omega

theorem offEq_replace {dims : List Nat} (hpos : ∀ d ∈ dims, 0 < d)
    (qargs : List Nat) (j m : Nat) :
    OffEq dims qargs (replaceDigits dims qargs j m) j :=
  fun i _ hi => digit_replace_not_mem hpos qargs j m i hi

theorem offEq_symm {dims qargs : List Nat} {j j' : Nat}
    (h : OffEq dims qargs j j') : OffEq dims qargs j' j :=
  fun i hi hni => (h i hi hni).symm

theorem replace_opIdx_of_offEq {dims : List Nat} (hpos : ∀ d ∈ dims, 0 < d) :
    ∀ (qargs : List Nat) (j j' : Nat), j < dims.prod → j' < dims.prod →
      OffEq dims qargs j j' →
      replaceDigits dims qargs j (opIdx dims qargs j') = j' := by
  intro qargs
  induction qargs with
  | nil =>
      intro j j' hj hj' hoff
      exact digit_ext dims j j' hj hj'
        (fun i hi => hoff i (List.mem_range.mpr hi) (List.not_mem_nil i))
  | cons a rest ih =>
      intro j j' hj hj' hoff
      have hb : 0 < dims.getD a 1 := base_pos hpos a
      unfold replaceDigits opIdx
      have hmb : (digit dims j' a + dims.getD a 1 * opIdx dims rest j') % dims.getD a 1
          = digit dims j' a := by
        rw [Nat.add_mul_mod_self_left, Nat.mod_eq_of_lt (digit_lt hpos j' a)]
      have hdb : (digit dims j' a + dims.getD a 1 * opIdx dims rest j') / dims.getD a 1
          = opIdx dims rest j' := by
        rw [Nat.add_mul_div_left _ _ hb, Nat.div_eq_of_lt (digit_lt hpos j' a), zero_add]
      rw [hmb, hdb]
      apply ih _ j' (setDigit_lt hpos hj (digit_lt hpos j' a)) hj'
      intro i hi hirest
      by_cases hia : i = a
      · subst hia
        exact digit_setDigit_same hpos j (digit_lt hpos j' i)
      · rw [digit_setDigit_ne hpos hia (digit_lt hpos j' a)]
        exact hoff i hi (by simp [hia, hirest])

theorem opIdx_eq_iff_digits {dims : List Nat} (hpos : ∀ d ∈ dims, 0 < d) :
    ∀ (qargs : List Nat) (x y : Nat),
      opIdx dims qargs x = opIdx dims qargs y ↔
        ∀ i ∈ qargs, digit dims x i = digit dims y i := by
  intro qargs
  induction qargs with
  | nil => simp [opIdx]
  | cons a rest ih =>
      intro x y
      have hb : 0 < dims.getD a 1 := base_pos hpos a
      have hx := digit_lt hpos x a
      have hy := digit_lt hpos y a
      constructor
      · intro h
        rw [show opIdx dims (a :: rest) x
            = digit dims x a + dims.getD a 1 * opIdx dims rest x from rfl,
          show opIdx dims (a :: rest) y
            = digit dims y a + dims.getD a 1 * opIdx dims rest y from rfl] at h
        have h1 : digit dims x a = digit dims y a := by
          have hc := congrArg (· % dims.getD a 1) h
          simp only at hc
          rwa [Nat.add_mul_mod_self_left, Nat.add_mul_mod_self_left,
            Nat.mod_eq_of_lt hx, Nat.mod_eq_of_lt hy] at hc
        have h2 : opIdx dims rest x = opIdx dims rest y := by
          have hc := congrArg (· / dims.getD a 1) h
          simp only at hc
          rwa [Nat.add_mul_div_left _ _ hb, Nat.add_mul_div_left _ _ hb,
            Nat.div_eq_of_lt hx, Nat.div_eq_of_lt hy, zero_add, zero_add] at hc
        intro i hi
        rcases List.mem_cons.mp hi with rfl | hi2
        · exact h1
        · exact (ih x y).mp h2 i hi2
      · intro h
        show digit dims x a + dims.getD a 1 * opIdx dims rest x
          = digit dims y a + dims.getD a 1 * opIdx dims rest y
        rw [h a (List.mem_cons_self a rest),
          (ih x y).mpr (fun i hi => h i (List.mem_cons_of_mem a hi))]

theorem getD_map_range {α : Type} (n : Nat) (f : Nat → α) (d : α) {j : Nat}
    (hj : j < n) : ((List.range n).map f).getD j d = f j := by
  rw [List.getD_eq_getElem _ _ (by simpa using hj)]
  simp

/-- The evolution engine agrees with the spec's full-space description:
applying `op_matrix` on `qargs` is the application of the full-space
operator that contracts `op_matrix` against the `qargs` axes with
identity on every other axis. -/
theorem evolveOp_eq_applyFull {K : Type} [CommRing K] (s : SV K)
    (M : List (List (Cplx K))) (q : List Nat) (hwf : s.WF)
    (hpos : ∀ d ∈ s.dims, 0 < d) (hnd : q.Nodup) :
    evolveOp s M (some q) = applyFull s (fullOpEntry s.dims q M) := by
  unfold evolveOp applyFull
  simp only [resolveQargs]
  congr 1
  apply List.map_congr_left
  intro j hj
  rw [List.mem_range] at hj
  have hdim : s.dim = s.dims.prod := hwf
  have hjP : j < s.dims.prod := hdim ▸ hj
  have h1 : ∀ j' ∈ Finset.range s.dim,
      fullOpEntry s.dims q M j j' * s.amps.getD j' 0
        = if OffEq s.dims q j j' then
            matEntry M (opIdx s.dims q j) (opIdx s.dims q j') * s.amps.getD j' 0
          else 0 := by
    intro j' _
    unfold fullOpEntry
    split <;> simp
  rw [Finset.sum_congr rfl h1, ← Finset.sum_filter]
  symm
  refine Finset.sum_nbij' (fun j' => opIdx s.dims q j')
    (fun m => replaceDigits s.dims q j m) ?_ ?_ ?_ ?_ ?_
  · intro j' _
    exact Finset.mem_range.mpr (opIdx_lt hpos q j')
  · intro m hm
    rw [Finset.mem_range] at hm
    rw [Finset.mem_filter, Finset.mem_range]
    refine ⟨?_, offEq_symm (offEq_replace hpos q j m)⟩
    rw [hdim]
    exact replaceDigits_lt hpos q j m hjP
  · intro j' hj'
    rw [Finset.mem_filter, Finset.mem_range] at hj'
    exact replace_opIdx_of_offEq hpos q j j' hjP (hdim ▸ hj'.1) hj'.2
  · intro m hm
    rw [Finset.mem_range] at hm
    exact opIdx_replace hpos q hnd j m hm
  · intro j' hj'
    rw [Finset.mem_filter, Finset.mem_range] at hj'
    rw [replace_opIdx_of_offEq hpos q j j' hjP (hdim ▸ hj'.1) hj'.2]

/-! ## Claim theorems: construction, indexing -/

/-- C7: with `dims` omitted, a power-of-two length is inferred as
`log2 n` qubits of dimension 2 each (`num_qubits` defined), and any
other length becomes a single subsystem of dimension equal to the
length (`num_qubits` absent). -/
theorem claim_C7 {K : Type} (amps : List (Cplx K)) :
    (∀ k : Nat, amps.length = 2 ^ k →
      ∃ s : SV K, mkStatevector amps .auto = .ok s ∧
        s.dims = List.replicate k 2 ∧ s.numQubits = some k) ∧
    ((¬ ∃ k : Nat, amps.length = 2 ^ k) →
      ∃ s : SV K, mkStatevector amps .auto = .ok s ∧
        s.dims = [amps.length] ∧ s.numQubits = none) := by
  constructor
  · intro k hk
    refine ⟨⟨amps, inferDims amps.length⟩, rfl, ?_, ?_⟩
    · unfold inferDims
      rw [hk, Nat.log2_eq_log_two, Nat.log_pow (by norm_num)]
      simp
    · unfold SV.numQubits inferDims
      rw [hk, Nat.log2_eq_log_two, Nat.log_pow (by norm_num)]
      simp
  · intro hk
    have hcond : ¬ (2 ^ Nat.log2 amps.length = amps.length) := by
      intro hc
      exact hk ⟨Nat.log2 amps.length, hc.symm⟩
    refine ⟨⟨amps, inferDims amps.length⟩, rfl, ?_, ?_⟩
    · unfold inferDims
      rw [if_neg hcond]
    · unfold SV.numQubits inferDims
      rw [if_neg hcond]
      have hne2 : amps.length ≠ 2 := by
        intro h2
        exact hk ⟨1, by omega⟩
      simp [hne2]

theorem claim_C7_witness :
    (∃ s : SV Int, mkStatevector (List.replicate 8 0) .auto = .ok s ∧
      s.dims = List.replicate 3 2 ∧ s.numQubits = some 3) ∧
    (∃ s : SV Int, mkStatevector (List.replicate 3 0) .auto = .ok s ∧
      s.dims = [3] ∧ s.numQubits = none) := by
  constructor
  · exact (claim_C7 (List.replicate 8 0)).1 3 (by decide)
  · refine (claim_C7 (List.replicate 3 0)).2 ?_
    rintro ⟨k, hk⟩
    simp at hk
    rcases k with _ | _ | k
    · omega
    · omega
    · have h4 : 4 ∣ 2 ^ (k + 2) := ⟨2 ^ k, by ring⟩
      omega

/-- C8: an explicit `dims` whose product differs from the amplitude
count — a sequence of the wrong product, or a single integer unequal to
the length — fails at construction time with a Dimension Mismatch
error. -/
theorem claim_C8 {K : Type} (amps : List (Cplx K)) :
    (∀ ds : List Nat, ds.prod ≠ amps.length →
      mkStatevector amps (.ofList ds) = .error "dimension mismatch") ∧
    (∀ d : Nat, d ≠ amps.length →
      mkStatevector amps (.single d) = .error "dimension mismatch") := by
  constructor
  · intro ds hne
    simp only [mkStatevector]
    rw [if_neg hne]
  · intro d hne
    simp only [mkStatevector]
    rw [if_neg hne]

theorem claim_C8_witness :
    mkStatevector (List.replicate 4 (0 : Cplx Int)) (.ofList [4, 2])
        = .error "dimension mismatch" ∧
    mkStatevector (List.replicate 4 (0 : Cplx Int)) (.ofList [2, 4])
        = .error "dimension mismatch" ∧
    mkStatevector (List.replicate 4 (0 : Cplx Int)) (.single 5)
        = .error "dimension mismatch" :=
  ⟨(claim_C8 _).1 [4, 2] (by decide), (claim_C8 _).1 [2, 4] (by decide),
    (claim_C8 _).2 5 (by decide)⟩

/-- C10: integer indexing returns the amplitude for `0 ≤ i < dim` and
raises for `i = dim` and for `i = -1` — negative indices are rejected
rather than wrapping around. -/
theorem claim_C10 {K : Type} (s : SV K) :
    (∀ (i : Nat) (hi : i < s.dim), s.getItem i = .ok (s.amps.get ⟨i, hi⟩)) ∧
    s.getItem (s.dim : Int) = .error "index out of range" ∧
    s.getItem (-1) = .error "index out of range" := by
  refine ⟨?_, ?_, ?_⟩
  · intro i hi
    unfold SV.getItem
    rw [dif_pos ⟨by omega, by exact_mod_cast hi⟩]
    congr 1
  · unfold SV.getItem
    rw [dif_neg]
    push_neg
    intro _
    exact le_refl _
  · unfold SV.getItem
    rw [dif_neg]
    push_neg
    intro h
    omega

theorem claim_C10_witness :
    (⟨[⟨5, 0⟩, ⟨7, 0⟩], [2]⟩ : SV Int).getItem 1 = .ok ⟨7, 0⟩ ∧
    (⟨[⟨5, 0⟩, ⟨7, 0⟩], [2]⟩ : SV Int).getItem 2 = .error "index out of range" ∧
    (⟨[⟨5, 0⟩, ⟨7, 0⟩], [2]⟩ : SV Int).getItem (-1) = .error "index out of range" := by
  have h := claim_C10 (⟨[⟨5, 0⟩, ⟨7, 0⟩], [2]⟩ : SV Int)
  exact ⟨h.1 1 (by decide), h.2.1, h.2.2⟩

/-! ## Claim theorems: tensor / expand composition order -/

/-- C1 counterexample: for `A` with dims `[2]` and `B` with dims `[3]`,
`A.tensorSV B` has dims `[3, 2]` — `B` (other), not `A` (self), occupies
the low (least-significant) positions — and the amplitude at flat index
1 is `a₀·b₁`, not `a₁·b₀` as the claimed self-least-significant ordering
would give. -/
theorem claim_C1_counterexample :
    (SV.tensorSV (⟨[⟨1, 0⟩, ⟨2, 0⟩], [2]⟩ : SV Int)
        ⟨[⟨1, 0⟩, ⟨10, 0⟩, ⟨100, 0⟩], [3]⟩).dims = [3, 2] ∧
    ¬ ((SV.tensorSV (⟨[⟨1, 0⟩, ⟨2, 0⟩], [2]⟩ : SV Int)
        ⟨[⟨1, 0⟩, ⟨10, 0⟩, ⟨100, 0⟩], [3]⟩).dims = [2] ++ [3]) ∧
    (SV.tensorSV (⟨[⟨1, 0⟩, ⟨2, 0⟩], [2]⟩ : SV Int)
        ⟨[⟨1, 0⟩, ⟨10, 0⟩, ⟨100, 0⟩], [3]⟩).amps.getD 1 0 = ⟨10, 0⟩ ∧
    ¬ ((SV.tensorSV (⟨[⟨1, 0⟩, ⟨2, 0⟩], [2]⟩ : SV Int)
        ⟨[⟨1, 0⟩, ⟨10, 0⟩, ⟨100, 0⟩], [3]⟩).amps.getD 1 0 = ⟨2, 0⟩) := by
  refine ⟨rfl, by decide, by decide, by decide⟩

/-- C1 amended: `A.tensorSV B` composes the two states with `B` (other)
as the least-significant subsystems — the result dims list `B`'s
dimensions in the low positions and the amplitude at `ja·dim(B) + jb`
is `a(ja)·b(jb)` — and `A.expandSV B` is exactly the mirror ordering
`B.tensorSV A`. -/
theorem claim_C1_amended {K : Type} [CommRing K] (A B : SV K) :
    (SV.tensorSV A B).dims = B.dims ++ A.dims ∧
    (∀ ja jb : Nat, ja < A.dim → jb < B.dim →
      (SV.tensorSV A B).amps.getD (ja * B.dim + jb) 0
        = A.amps.getD ja 0 * B.amps.getD jb 0) ∧
    SV.expandSV A B = SV.tensorSV B A := by
  refine ⟨rfl, ?_, rfl⟩
  intro ja jb hja hjb
  simp only [SV.dim] at hja hjb ⊢
  have hb : 0 < B.amps.length := by omega
  unfold SV.tensorSV kronList
  rw [getD_map_range]
  · have hdiv : (ja * B.amps.length + jb) / B.amps.length = ja := by
      rw [show ja * B.amps.length + jb = B.amps.length * ja + jb by ring,
        Nat.mul_add_div hb, Nat.div_eq_of_lt hjb, add_zero]
    have hmod : (ja * B.amps.length + jb) % B.amps.length = jb := by
      rw [show ja * B.amps.length + jb = B.amps.length * ja + jb by ring,
        Nat.mul_add_mod, Nat.mod_eq_of_lt hjb]
    rw [hdiv, hmod]
  · show ja * B.amps.length + jb < A.amps.length * B.amps.length
    have h1 : ja + 1 ≤ A.amps.length := hja
    calc ja * B.amps.length + jb < ja * B.amps.length + B.amps.length := by omega
      _ = (ja + 1) * B.amps.length := by ring
      _ ≤ A.amps.length * B.amps.length := Nat.mul_le_mul_right _ h1

theorem claim_C1_amended_witness :
    (SV.tensorSV (⟨[⟨1, 0⟩, ⟨2, 0⟩], [2]⟩ : SV Int)
        ⟨[⟨1, 0⟩, ⟨10, 0⟩, ⟨100, 0⟩], [3]⟩).dims = [3] ++ [2] ∧
    (SV.tensorSV (⟨[⟨1, 0⟩, ⟨2, 0⟩], [2]⟩ : SV Int)
        ⟨[⟨1, 0⟩, ⟨10, 0⟩, ⟨100, 0⟩], [3]⟩).amps.getD (1 * 3 + 2) 0
      = ⟨2, 0⟩ * ⟨100, 0⟩ ∧
    SV.expandSV (⟨[⟨1, 0⟩, ⟨2, 0⟩], [2]⟩ : SV Int)
        ⟨[⟨1, 0⟩, ⟨10, 0⟩, ⟨100, 0⟩], [3]⟩
      = SV.tensorSV ⟨[⟨1, 0⟩, ⟨10, 0⟩, ⟨100, 0⟩], [3]⟩ ⟨[⟨1, 0⟩, ⟨2, 0⟩], [2]⟩ := by
  have h := claim_C1_amended (⟨[⟨1, 0⟩, ⟨2, 0⟩], [2]⟩ : SV Int)
    ⟨[⟨1, 0⟩, ⟨10, 0⟩, ⟨100, 0⟩], [3]⟩
  exact ⟨h.1, h.2.1 1 2 (by decide) (by decide), h.2.2⟩

/-! ## Claim theorems: probability clipping -/

theorem normSq_nonneg {K : Type} [LinearOrderedCommRing K] (z : Cplx K) :
    0 ≤ Cplx.normSq z :=
  add_nonneg (mul_self_nonneg _) (mul_self_nonneg _)

theorem clip01_nonneg {K : Type} [LinearOrderedCommRing K] (x : K) :
    0 ≤ clip01 x := le_max_left 0 _

theorem clip01_le_one {K : Type} [LinearOrderedCommRing K] (x : K) :
    clip01 x ≤ 1 := max_le zero_le_one (min_le_right x 1)

/-- C9: every entry of `probabilities()` lies in `[0, 1]`: negative
entries are clipped up to 0 and entries exceeding 1 — as produced by an
unnormalized state such as `[1.1, 0]`, whose squared magnitude is
1.21 — are clipped down to 1. -/
theorem claim_C9 :
    (∀ (K : Type) (_inst : LinearOrderedCommRing K) (s : SV K)
      (qargs : Option (List Nat)), ∀ p ∈ probabilitiesArr s qargs,
        0 ≤ p ∧ p ≤ 1) ∧
    probabilitiesArr (⟨[⟨11/10, 0⟩, 0], [2]⟩ : SV ℚ) none = [1, 0] ∧
    probabilitiesDict (⟨[⟨11/10, 0⟩, 0], [2]⟩ : SV ℚ) none = [("0", 1)] := by
  refine ⟨?_, ?_, ?_⟩
  · intro K _inst s qargs p hp
    unfold probabilitiesArr at hp
    rw [List.mem_map] at hp
    obtain ⟨m, _, hm⟩ := hp
    exact hm ▸ ⟨clip01_nonneg _, clip01_le_one _⟩
  · show probabilitiesArr (⟨[⟨11/10, 0⟩, 0], [2]⟩ : SV ℚ) none = [1, 0]
    unfold probabilitiesArr resolveQargs blockProb clip01
    norm_num [SV.dim, opDim, opIdx, digit, stride, Cplx.normSq,
      List.range_succ, Finset.sum_range_succ]
  · unfold probabilitiesDict resolveQargs blockProb clip01
    norm_num [SV.dim, opDim, opIdx, digit, stride, Cplx.normSq, digitLabel,
      qargBases, outcomeDigits, List.range_succ, Finset.sum_range_succ,
      List.filterMap]

theorem claim_C9_witness : 0 ≤ (1 : ℚ) ∧ (1 : ℚ) ≤ 1 :=
  claim_C9.1 ℚ inferInstance ⟨[⟨11/10, 0⟩, 0], [2]⟩ none 1
    (by rw [claim_C9.2.1]; exact List.mem_cons_self 1 [0])

/-! ## Claim theorems: probability rounding -/

theorem roundHalfEven_abs_le {K : Type} [LinearOrderedField K] [FloorRing K]
    (y : K) : |(roundHalfEven y : K) - y| ≤ 1 / 2 := by
  have h1 : (⌊y⌋ : K) ≤ y := Int.floor_le y
  have h2 : y < ⌊y⌋ + 1 := Int.lt_floor_add_one y
  unfold roundHalfEven
  split_ifs with hf hg he <;>
    rw [abs_le] <;> constructor <;> push_cast <;> linarith

/-- C2 amended: with explicit rounding requested, each returned entry is
the clipped probability rounded to `d` decimal places (an integer
multiple of `10^(-d)`, within `10^(-d)/2` of the clipped value);
rounding is the final step and no renormalization follows it, so the
rounded distribution need not sum to 1. -/
theorem claim_C2_amended {K : Type} [LinearOrderedField K] [FloorRing K]
    (s : SV K) (qargs : Option (List Nat)) (d : Nat) :
    (probabilitiesDec s qargs d).length = (probabilitiesArr s qargs).length ∧
    ∀ i : Nat, i < (probabilitiesArr s qargs).length →
      |(probabilitiesDec s qargs d).getD i 0 - (probabilitiesArr s qargs).getD i 0|
          ≤ 1 / (2 * 10 ^ d) ∧
      ∃ z : Int, (probabilitiesDec s qargs d).getD i 0 = (z : K) / 10 ^ d := by
  constructor
  · unfold probabilitiesDec
    simp
  · intro i hi
    unfold probabilitiesDec
    rw [List.getD_eq_getElem _ _ (by simpa using hi), List.getElem_map,
      List.getD_eq_getElem _ _ hi]
    constructor
    · show |roundTo d ((probabilitiesArr s qargs).get ⟨i, hi⟩) -
        (probabilitiesArr s qargs).get ⟨i, hi⟩| ≤ 1 / (2 * 10 ^ d)
      set x : K := (probabilitiesArr s qargs).get ⟨i, hi⟩
      have hp : (0 : K) < 10 ^ d := by positivity
      have hb := roundHalfEven_abs_le (x * 10 ^ d)
      unfold roundTo
      rw [show (roundHalfEven (x * 10 ^ d) : K) / 10 ^ d - x
          = ((roundHalfEven (x * 10 ^ d) : K) - x * 10 ^ d) / 10 ^ d by
        field_simp
        ring]
      rw [abs_div, abs_of_pos hp, div_le_div_iff₀ hp (by positivity)]
      calc |(roundHalfEven (x * 10 ^ d) : K) - x * 10 ^ d| * (2 * 10 ^ d)
          ≤ (1 / 2) * (2 * 10 ^ d) := by
            apply mul_le_mul_of_nonneg_right hb
            positivity
        _ = 1 * 10 ^ d := by ring
    · exact ⟨roundHalfEven ((probabilitiesArr s qargs).get ⟨i, hi⟩ * 10 ^ d), rfl⟩

/-- C2 counterexample: the normalized 1-qutrit state with probabilities
`(0.13, 0.13, 0.74)` (which sum to exactly 1) has
`probabilities(decimals=1) = [0.1, 0.1, 0.7]`, summing to `0.9` — the
rounded distribution is not renormalized to sum exactly 1. -/
theorem claim_C2_counterexample :
    (probabilitiesArr (⟨[⟨3/10, 1/5⟩, ⟨3/10, 1/5⟩, ⟨7/10, 1/2⟩], [3]⟩ : SV ℚ)
        none).sum = 1 ∧
    probabilitiesDec (⟨[⟨3/10, 1/5⟩, ⟨3/10, 1/5⟩, ⟨7/10, 1/2⟩], [3]⟩ : SV ℚ)
        none 1 = [1/10, 1/10, 7/10] ∧
    ([1/10, 1/10, 7/10] : List ℚ).sum ≠ 1 := by
  refine ⟨?_, ?_, by norm_num⟩
  · unfold probabilitiesArr resolveQargs blockProb clip01
    norm_num [SV.dim, opDim, opIdx, digit, stride, Cplx.normSq,
      List.range_succ, Finset.sum_range_succ]
  · have hf1 : Int.fract ((13 : ℚ)/10) = 3/10 := by
      rw [Int.fract_eq_iff]
      refine ⟨by norm_num, by norm_num, 1, by norm_num⟩
    have hf2 : Int.fract ((37 : ℚ)/5) = 2/5 := by
      rw [Int.fract_eq_iff]
      refine ⟨by norm_num, by norm_num, 7, by norm_num⟩
    unfold probabilitiesDec probabilitiesArr resolveQargs blockProb clip01
      roundTo roundHalfEven
    norm_num [SV.dim, opDim, opIdx, digit, stride, Cplx.normSq,
      List.range_succ, Finset.sum_range_succ, Int.self_sub_floor, hf1, hf2]

theorem claim_C2_witness :
    |(probabilitiesDec (⟨[⟨3/10, 1/5⟩, ⟨3/10, 1/5⟩, ⟨7/10, 1/2⟩], [3]⟩ : SV ℚ)
        none 1).getD 0 0 -
      (probabilitiesArr (⟨[⟨3/10, 1/5⟩, ⟨3/10, 1/5⟩, ⟨7/10, 1/2⟩], [3]⟩ : SV ℚ)
        none).getD 0 0| ≤ 1 / (2 * 10 ^ 1) ∧
    ∃ z : Int,
      (probabilitiesDec (⟨[⟨3/10, 1/5⟩, ⟨3/10, 1/5⟩, ⟨7/10, 1/2⟩], [3]⟩ : SV ℚ)
        none 1).getD 0 0 = (z : ℚ) / 10 ^ 1 :=
  (claim_C2_amended (⟨[⟨3/10, 1/5⟩, ⟨3/10, 1/5⟩, ⟨7/10, 1/2⟩], [3]⟩ : SV ℚ)
    none 1).2 0
    (by norm_num [probabilitiesArr, resolveQargs, opDim, List.range_succ])

/-! ## Claim theorems: evolution -/

/-- C4: `evolve(op_matrix, qargs)` equals applying the full-space
operator that contracts `op_matrix` against the axes named by `qargs`
(in the given order) with identity on every other axis; and the order of
`qargs` matters — on the 3-qubit basis state `|000⟩` the two-qubit
operator `X⊗I` applied on `qargs=[0,2]` differs from `qargs=[2,0]`. -/
theorem claim_C4 :
    (∀ (K : Type) (_inst : CommRing K) (s : SV K) (M : List (List (Cplx K)))
      (q : List Nat), s.WF → (∀ d ∈ s.dims, 0 < d) → q.Nodup →
        evolveOp s M (some q) = applyFull s (fullOpEntry s.dims q M)) ∧
    evolveOp (⟨[1, 0, 0, 0, 0, 0, 0, 0], [2, 2, 2]⟩ : SV Int)
        [[0, 1, 0, 0], [1, 0, 0, 0], [0, 0, 0, 1], [0, 0, 1, 0]] (some [0, 2])
      ≠ evolveOp (⟨[1, 0, 0, 0, 0, 0, 0, 0], [2, 2, 2]⟩ : SV Int)
        [[0, 1, 0, 0], [1, 0, 0, 0], [0, 0, 0, 1], [0, 0, 1, 0]] (some [2, 0]) := by
  constructor
  · intro K _inst s M q hwf hpos hnd
    exact evolveOp_eq_applyFull s M q hwf hpos hnd
  · decide

theorem claim_C4_witness :
    evolveOp (⟨[1, 0, 0, 0, 0, 0, 0, 0], [2, 2, 2]⟩ : SV Int)
        [[0, 1, 0, 0], [1, 0, 0, 0], [0, 0, 0, 1], [0, 0, 1, 0]] (some [0, 2])
      = applyFull (⟨[1, 0, 0, 0, 0, 0, 0, 0], [2, 2, 2]⟩ : SV Int)
        (fullOpEntry [2, 2, 2] [0, 2]
          [[0, 1, 0, 0], [1, 0, 0, 0], [0, 0, 0, 1], [0, 0, 1, 0]]) :=
  claim_C4.1 Int inferInstance _ _ [0, 2] rfl (by decide) (by decide)

/-! ## Claim theorems: observable evaluator -/

theorem ofK_zero {K : Type} [CommRing K] : Cplx.ofK (0 : K) = 0 := rfl

theorem ofK_add {K : Type} [CommRing K] (a b : K) :
    Cplx.ofK (a + b) = Cplx.ofK a + Cplx.ofK b := by
  simp [Cplx.ofK, Cplx.ext_iff]

theorem ofK_sum {K : Type} [CommRing K] (t : Finset Nat) (f : Nat → K) :
    ∑ i ∈ t, Cplx.ofK (f i) = Cplx.ofK (∑ i ∈ t, f i) := by
  induction t using Finset.induction_on with
  | empty => simp [ofK_zero]
  | insert h ih => rw [Finset.sum_insert h, Finset.sum_insert h, ofK_add, ih]

theorem conj_mul_self {K : Type} [CommRing K] (z : Cplx K) :
    Cplx.conj z * z = Cplx.ofK (Cplx.normSq z) := by
  simp only [Cplx.conj, Cplx.normSq, Cplx.ofK, Cplx.ext_iff, Cplx.mul_re,
    Cplx.mul_im]
  constructor <;> ring

/-- The conjugate-linear inner product of a state with itself is its
total squared norm. -/
theorem innerSV_self {K : Type} [LinearOrderedCommRing K] (s : SV K) :
    innerSV s s = Cplx.ofK (normSqTotal s) := by
  unfold innerSV normSqTotal
  rw [← ofK_sum]
  exact Finset.sum_congr rfl (fun j _ => conj_mul_self _)

/-- Applying the full-space identity operator leaves the state
unchanged. -/
theorem applyFull_id {K : Type} [CommRing K] (s : SV K) :
    applyFull s (fun j j' => if j = j' then 1 else 0) = s := by
  unfold applyFull
  have hamp : (List.range s.dim).map
      (fun j => ∑ j' ∈ Finset.range s.dim,
        (if j = j' then (1 : Cplx K) else 0) * s.amps.getD j' 0) = s.amps := by
    apply List.ext_getElem
    · simp [SV.dim]
    · intro i h1 h2
      simp only [List.getElem_map, List.getElem_range]
      simp only [ite_mul, one_mul, zero_mul]
      rw [Finset.sum_ite_eq]
      rw [if_pos (Finset.mem_range.mpr (by simpa [SV.dim] using h2))]
      rw [List.getD_eq_getElem s.amps 0 h2]
  cases s with
  | mk amps dims => simpa using hamp

/-- C6: the expectation value of an observable consisting of the single
identity term with coefficient `c` is exactly `c · ‖ψ‖²` for every
state, normalized or not, via the identity short-circuit; and the
short-circuited value agrees exactly with the full-space matrix
contraction path `c · ⟨ψ| Id |ψ⟩`. -/
theorem claim_C6 {K : Type} [LinearOrderedCommRing K] (s : SV K)
    (c : Cplx K) (n : Nat) :
    expectationValue s [(List.replicate n .I, c)]
        = c * Cplx.ofK (normSqTotal s) ∧
    c * innerSV s (applyFull s (fun j j' => if j = j' then 1 else 0))
        = c * Cplx.ofK (normSqTotal s) := by
  constructor
  · have hall : ((List.replicate n PauliChar.I).all (· = PauliChar.I)) = true := by
      rw [List.all_eq_true]
      intro x hx
      simp [List.eq_of_mem_replicate hx]
    unfold expectationValue termExpval
    simp only [List.foldr, hall]
    simp
  · rw [applyFull_id, innerSV_self]

/-! ## Claim theorems: measurement -/

theorem sampleFrom_mem {K : Type} [LinearOrderedCommRing K] :
    ∀ (probs : List K) (r : K), (∀ p ∈ probs, 0 ≤ p) → 0 ≤ r →
      r < probs.sum →
      sampleFrom r probs < probs.length ∧
        0 < probs.getD (sampleFrom r probs) 0 := by
  intro probs
  induction probs with
  | nil =>
      intro r _ hr hlt
      rw [List.sum_nil] at hlt
      exact absurd hlt (not_lt.mpr hr)
  | cons p rest ih =>
      intro r hpos hr hlt
      unfold sampleFrom
      by_cases hc : r < p
      · rw [if_pos hc]
        exact ⟨by simp, by simpa using lt_of_le_of_lt hr hc⟩
      · rw [if_neg hc]
        push_neg at hc
        have h1 : 0 ≤ r - p := by linarith
        have h2 : r - p < rest.sum := by
          rw [List.sum_cons] at hlt
          linarith
        obtain ⟨ha, hb⟩ :=
          ih (r - p) (fun x hx => hpos x (List.mem_cons_of_mem p hx)) h1 h2
        exact ⟨by simpa using ha, by simpa using hb⟩

theorem blockProb_nonneg {K : Type} [LinearOrderedCommRing K] (s : SV K)
    (q : List Nat) (m : Nat) : 0 ≤ blockProb s q m := by
  unfold blockProb
  apply Finset.sum_nonneg
  intro j _
  split
  · exact normSq_nonneg _
  · exact le_refl 0

theorem clip01_pos_of_pos {K : Type} [LinearOrderedCommRing K] {x : K}
    (hx : 0 < x) : 0 < clip01 x :=
  lt_max_of_lt_right (lt_min hx zero_lt_one)

theorem pos_of_clip01_pos {K : Type} [LinearOrderedCommRing K] {x : K}
    (hx : 0 < clip01 x) : 0 < x := by
  unfold clip01 at hx
  rcases max_cases (0 : K) (min x 1) with ⟨he, _⟩ | ⟨he, _⟩
  · rw [he] at hx
    exact absurd hx (lt_irrefl 0)
  · rw [he] at hx
    exact lt_of_lt_of_le hx (min_le_left x 1)

theorem collapseSV_dim {K : Type} [LinearOrderedCommRing K] (s : SV K)
    (q : List Nat) (k : Nat) : (collapseSV s q k).dim = s.dim := by
  simp [collapseSV, SV.dim]

theorem collapseSV_amp {K : Type} [LinearOrderedCommRing K] (s : SV K)
    (q : List Nat) (k : Nat) {j : Nat} (hj : j < s.dim) :
    (collapseSV s q k).amps.getD j 0
      = if opIdx s.dims q j = k then s.amps.getD j 0 else 0 := by
  unfold collapseSV
  exact getD_map_range s.dim _ 0 hj

theorem blockProb_collapse_self {K : Type} [LinearOrderedCommRing K]
    (s : SV K) (q : List Nat) (k : Nat) :
    blockProb (collapseSV s q k) q k = blockProb s q k := by
  unfold blockProb
  rw [show (collapseSV s q k).dims = s.dims from rfl, collapseSV_dim]
  apply Finset.sum_congr rfl
  intro j hj
  rw [Finset.mem_range] at hj
  rw [collapseSV_amp s q k hj]
  by_cases hc : opIdx s.dims q j = k
  · rw [if_pos hc, if_pos hc, if_pos hc]
  · rw [if_neg hc, if_neg hc]

theorem blockProb_collapse_ne {K : Type} [LinearOrderedCommRing K]
    (s : SV K) (q : List Nat) {k m : Nat} (hne : m ≠ k) :
    blockProb (collapseSV s q k) q m = 0 := by
  unfold blockProb
  rw [show (collapseSV s q k).dims = s.dims from rfl, collapseSV_dim]
  apply Finset.sum_eq_zero
  intro j hj
  rw [Finset.mem_range] at hj
  rw [collapseSV_amp s q k hj]
  by_cases hc : opIdx s.dims q j = m
  · rw [if_neg (show opIdx s.dims q j ≠ k by omega), if_pos hc]
    exact Cplx.normSq_zero
  · rw [if_neg hc]

theorem normSqTotal_collapse {K : Type} [LinearOrderedCommRing K]
    (s : SV K) (q : List Nat) (k : Nat) :
    normSqTotal (collapseSV s q k) = blockProb s q k := by
  unfold normSqTotal blockProb
  rw [collapseSV_dim]
  apply Finset.sum_congr rfl
  intro j hj
  rw [Finset.mem_range] at hj
  rw [collapseSV_amp s q k hj]
  by_cases hc : opIdx s.dims q j = k
  · rw [if_pos hc, if_pos hc]
  · rw [if_neg hc, if_neg hc]
    exact Cplx.normSq_zero

theorem sampleDist_getD {K : Type} [LinearOrderedCommRing K] (s : SV K)
    (q : List Nat) {k : Nat} (hk : k < opDim s.dims q) :
    (sampleDist s q).getD k 0 = clip01 (blockProb s q k) := by
  unfold sampleDist
  exact getD_map_range _ _ 0 hk

theorem sampleDist_length {K : Type} [LinearOrderedCommRing K] (s : SV K)
    (q : List Nat) : (sampleDist s q).length = opDim s.dims q := by
  simp [sampleDist]

theorem sampleDist_nonneg {K : Type} [LinearOrderedCommRing K] (s : SV K)
    (q : List Nat) : ∀ p ∈ sampleDist s q, 0 ≤ p := by
  intro p hp
  unfold sampleDist at hp
  rw [List.mem_map] at hp
  obtain ⟨m, _, hm⟩ := hp
  exact hm ▸ clip01_nonneg _

/-- C3: for a state with nonzero probability mass on the measured
subsystems (a valid random draw `r` exists below the total sampled
mass), the sampled outcome of `measure(qargs)` lies in the support of
`probabilities_dict(qargs)` — its printable label appears in the
dictionary with its positive probability — and the collapse zeroes
every amplitude inconsistent with the outcome: the zeroed state carries
all of its squared norm on the measured outcome, every other outcome
has probability 0, and the renormalized post-measurement state has
probability exactly 1 at the measured basis value (probabilities scale
by the square of the renormalizing scalar `1/√p`, so that probability
is the stated ratio). -/
theorem claim_C3 {K : Type} [LinearOrderedField K] (s : SV K)
    (q : List Nat) (r : K) (hr0 : 0 ≤ r)
    (hrlt : r < (sampleDist s q).sum) :
    (measureIdx s q r < opDim s.dims q ∧
      0 < blockProb s q (measureIdx s q r)) ∧
    (digitLabel (qargBases s.dims q) (measureIdx s q r),
        clip01 (blockProb s q (measureIdx s q r)))
      ∈ probabilitiesDict s (some q) ∧
    blockProb (collapseSV s q (measureIdx s q r)) q (measureIdx s q r)
      = blockProb s q (measureIdx s q r) ∧
    normSqTotal (collapseSV s q (measureIdx s q r))
      = blockProb s q (measureIdx s q r) ∧
    (∀ m : Nat, m ≠ measureIdx s q r →
      blockProb (collapseSV s q (measureIdx s q r)) q m = 0) ∧
    blockProb (collapseSV s q (measureIdx s q r)) q (measureIdx s q r)
        / normSqTotal (collapseSV s q (measureIdx s q r)) = 1 := by
  obtain ⟨hlen, hpos⟩ :=
    sampleFrom_mem (sampleDist s q) r (sampleDist_nonneg s q) hr0 hrlt
  rw [sampleDist_length] at hlen
  have hk : measureIdx s q r < opDim s.dims q := hlen
  rw [show sampleFrom r (sampleDist s q) = measureIdx s q r from rfl] at hpos
  rw [sampleDist_getD s q hk] at hpos
  have hbpos : 0 < blockProb s q (measureIdx s q r) := pos_of_clip01_pos hpos
  refine ⟨⟨hk, hbpos⟩, ?_, blockProb_collapse_self s q _, normSqTotal_collapse s q _,
    fun m hm => blockProb_collapse_ne s q hm, ?_⟩
  · unfold probabilitiesDict
    simp only [resolveQargs]
    rw [List.mem_filterMap]
    refine ⟨measureIdx s q r, List.mem_range.mpr hk, ?_⟩
    rw [if_neg (ne_of_gt hpos)]
  · rw [blockProb_collapse_self, normSqTotal_collapse]
    exact div_self (ne_of_gt hbpos)

theorem claim_C3_witness :
    (measureIdx (⟨[0, ⟨1, 0⟩], [2]⟩ : SV ℚ) [0] 0 < opDim [2] [0] ∧
      0 < blockProb (⟨[0, ⟨1, 0⟩], [2]⟩ : SV ℚ) [0]
        (measureIdx (⟨[0, ⟨1, 0⟩], [2]⟩ : SV ℚ) [0] 0)) ∧
    (digitLabel (qargBases [2] [0]) (measureIdx (⟨[0, ⟨1, 0⟩], [2]⟩ : SV ℚ) [0] 0),
        clip01 (blockProb (⟨[0, ⟨1, 0⟩], [2]⟩ : SV ℚ) [0]
          (measureIdx (⟨[0, ⟨1, 0⟩], [2]⟩ : SV ℚ) [0] 0)))
      ∈ probabilitiesDict (⟨[0, ⟨1, 0⟩], [2]⟩ : SV ℚ) (some [0]) ∧
    blockProb (collapseSV (⟨[0, ⟨1, 0⟩], [2]⟩ : SV ℚ) [0]
        (measureIdx (⟨[0, ⟨1, 0⟩], [2]⟩ : SV ℚ) [0] 0)) [0]
        (measureIdx (⟨[0, ⟨1, 0⟩], [2]⟩ : SV ℚ) [0] 0)
      = blockProb (⟨[0, ⟨1, 0⟩], [2]⟩ : SV ℚ) [0]
        (measureIdx (⟨[0, ⟨1, 0⟩], [2]⟩ : SV ℚ) [0] 0) ∧
    normSqTotal (collapseSV (⟨[0, ⟨1, 0⟩], [2]⟩ : SV ℚ) [0]
        (measureIdx (⟨[0, ⟨1, 0⟩], [2]⟩ : SV ℚ) [0] 0))
      = blockProb (⟨[0, ⟨1, 0⟩], [2]⟩ : SV ℚ) [0]
        (measureIdx (⟨[0, ⟨1, 0⟩], [2]⟩ : SV ℚ) [0] 0) ∧
    (∀ m : Nat, m ≠ measureIdx (⟨[0, ⟨1, 0⟩], [2]⟩ : SV ℚ) [0] 0 →
      blockProb (collapseSV (⟨[0, ⟨1, 0⟩], [2]⟩ : SV ℚ) [0]
        (measureIdx (⟨[0, ⟨1, 0⟩], [2]⟩ : SV ℚ) [0] 0)) [0] m = 0) ∧
    blockProb (collapseSV (⟨[0, ⟨1, 0⟩], [2]⟩ : SV ℚ) [0]
        (measureIdx (⟨[0, ⟨1, 0⟩], [2]⟩ : SV ℚ) [0] 0)) [0]
        (measureIdx (⟨[0, ⟨1, 0⟩], [2]⟩ : SV ℚ) [0] 0)
      / normSqTotal (collapseSV (⟨[0, ⟨1, 0⟩], [2]⟩ : SV ℚ) [0]
        (measureIdx (⟨[0, ⟨1, 0⟩], [2]⟩ : SV ℚ) [0] 0)) = 1 :=
  claim_C3 (⟨[0, ⟨1, 0⟩], [2]⟩ : SV ℚ) [0] 0 le_rfl
    (by norm_num [sampleDist, blockProb, clip01, opDim, opIdx, digit, stride,
      SV.dim, Cplx.normSq, List.range_succ, Finset.sum_range_succ])

/-! ## Claim theorems: qargs reordering of probability queries -/

theorem q2_half_le_one : (⟨1/2, 0⟩ : Q2) ≤ 1 := by
  show Q2.nonnegB (1 + -(⟨1/2, 0⟩ : Q2)) = true
  norm_num [Q2.nonnegB]

theorem q2_half_nonneg : (0 : Q2) ≤ ⟨1/2, 0⟩ := by
  show Q2.nonnegB ((⟨1/2, 0⟩ : Q2) + -0) = true
  norm_num [Q2.nonnegB]

theorem clip01_half : clip01 (⟨1/2, 0⟩ : Q2) = ⟨1/2, 0⟩ := by
  unfold clip01
  rw [min_eq_left q2_half_le_one, max_eq_right q2_half_nonneg]

theorem clip01_zeroQ2 : clip01 (0 : Q2) = 0 := by
  unfold clip01
  rw [min_eq_left (zero_le_one), max_self]

theorem qubitOfChar_plus : qubitOfChar '+' = [invSqrt2, invSqrt2] := rfl

theorem qubitOfChar_zero : qubitOfChar '0' = [1, 0] := rfl

theorem fromLabel_plus0 :
    fromLabel "+0" = ⟨[invSqrt2, 0, invSqrt2, 0], [2, 2]⟩ := by
  show List.foldl _ _ ['+', '0'] = _
  norm_num [SV.tensorSV, kronList, qubitOfChar_plus, qubitOfChar_zero,
    List.range_succ]

theorem q2_mk_mul (a b c d : ℚ) :
    (⟨a, b⟩ : Q2) * ⟨c, d⟩ = ⟨a * c + 2 * (b * d), a * d + b * c⟩ := rfl

theorem q2_mk_add (a b c d : ℚ) :
    (⟨a, b⟩ : Q2) + ⟨c, d⟩ = ⟨a + c, b + d⟩ := rfl

theorem q2_mk_eq_zero (a b : ℚ) : ((⟨a, b⟩ : Q2) = 0) ↔ a = 0 ∧ b = 0 := by
  rw [show (0 : Q2) = ⟨0, 0⟩ from rfl, Q2.mk.injEq]

theorem probsDict_plus0_01 :
    probabilitiesDict (fromLabel "+0") (some [0, 1])
      = [("00", ⟨1/2, 0⟩), ("10", ⟨1/2, 0⟩)] := by
  rw [fromLabel_plus0]
  unfold probabilitiesDict
  simp only [resolveQargs]
  norm_num [opDim, blockProb, opIdx, digit, stride, SV.dim, Cplx.normSq,
    invSqrt2, q2_mk_mul, q2_mk_add, q2_mk_eq_zero, clip01_half, clip01_zeroQ2,
    digitLabel, outcomeDigits, qargBases, List.range_succ,
    Finset.sum_range_succ, List.filterMap]

theorem probsDict_plus0_10 :
    probabilitiesDict (fromLabel "+0") (some [1, 0])
      = [("00", ⟨1/2, 0⟩), ("01", ⟨1/2, 0⟩)] := by
  rw [fromLabel_plus0]
  unfold probabilitiesDict
  simp only [resolveQargs]
  norm_num [opDim, blockProb, opIdx, digit, stride, SV.dim, Cplx.normSq,
    invSqrt2, q2_mk_mul, q2_mk_add, q2_mk_eq_zero, clip01_half, clip01_zeroQ2,
    digitLabel, outcomeDigits, qargBases, List.range_succ,
    Finset.sum_range_succ, List.filterMap]

theorem blockProb_perm {K : Type} [LinearOrderedCommRing K] (s : SV K)
    (q1 q2 : List Nat) (hpos : ∀ d ∈ s.dims, 0 < d) (hnd2 : q2.Nodup)
    (hperm : q2.Perm q1) {m : Nat} (hm : m < opDim s.dims q2) :
    blockProb s q2 m
      = blockProb s q1 (opIdx s.dims q1 (replaceDigits s.dims q2 0 m)) := by
  have hx0 : opIdx s.dims q2 (replaceDigits s.dims q2 0 m) = m :=
    opIdx_replace hpos q2 hnd2 0 m hm
  have hmem : ∀ i, i ∈ q2 ↔ i ∈ q1 := fun i => hperm.mem_iff
  unfold blockProb
  apply Finset.sum_congr rfl
  intro j _
  refine if_congr ?_ rfl rfl
  constructor
  · intro h
    have h2 : opIdx s.dims q2 j
        = opIdx s.dims q2 (replaceDigits s.dims q2 0 m) := by
      rw [hx0]
      exact h
    have hdig := (opIdx_eq_iff_digits hpos q2 j _).mp h2
    exact (opIdx_eq_iff_digits hpos q1 j _).mpr
      (fun i hi => hdig i ((hmem i).mpr hi))
  · intro h
    have hdig := (opIdx_eq_iff_digits hpos q1 j _).mp h
    have h2 := (opIdx_eq_iff_digits hpos q2 j _).mpr
      (fun i hi => hdig i ((hmem i).mp hi))
    rw [h2, hx0]

/-- C5: reordering `qargs` permutes the probability output consistently
with the requested subsystem order: over permuted `qargs` every outcome
carries the probability of the digit-wise corresponding outcome over the
original order, and in particular for `from_label("+0")` the probability
dictionary over `qargs=[0,1]` is `{"00": 0.5, "10": 0.5}` while over
`qargs=[1,0]` it is `{"00": 0.5, "01": 0.5}`. -/
theorem claim_C5 :
    (∀ (K : Type) (_inst : LinearOrderedCommRing K) (s : SV K)
      (q1 q2 : List Nat), (∀ d ∈ s.dims, 0 < d) → q2.Nodup →
        q2.Perm q1 → ∀ m : Nat, m < opDim s.dims q2 →
          blockProb s q2 m
            = blockProb s q1 (opIdx s.dims q1 (replaceDigits s.dims q2 0 m))) ∧
    probabilitiesDict (fromLabel "+0") (some [0, 1])
      = [("00", ⟨1/2, 0⟩), ("10", ⟨1/2, 0⟩)] ∧
    probabilitiesDict (fromLabel "+0") (some [1, 0])
      = [("00", ⟨1/2, 0⟩), ("01", ⟨1/2, 0⟩)] :=
  ⟨fun _ _inst s q1 q2 hpos hnd2 hperm _ hm =>
      blockProb_perm s q1 q2 hpos hnd2 hperm hm,
    probsDict_plus0_01, probsDict_plus0_10⟩

theorem claim_C5_witness :
    blockProb (⟨[⟨1, 0⟩, 0, 0, ⟨2, 0⟩], [2, 2]⟩ : SV ℚ) [0, 1] 3
      = blockProb (⟨[⟨1, 0⟩, 0, 0, ⟨2, 0⟩], [2, 2]⟩ : SV ℚ) [1, 0]
          (opIdx [2, 2] [1, 0] (replaceDigits [2, 2] [0, 1] 0 3)) :=
  claim_C5.1 ℚ inferInstance ⟨[⟨1, 0⟩, 0, 0, ⟨2, 0⟩], [2, 2]⟩ [1, 0] [0, 1]
    (by decide) (by decide) (by decide) 3 (by decide)
